import Mathlib

/-!
Shallow embedding of `src/fingerprint.rs` (timeseries-fingerprint).

Modelling conventions:
* Rust `usize` becomes `Nat`; the `u64` digest becomes `Nat`.
* `DefaultHasher`-based `hash_sequence` is an unspecified deterministic function of
  the ordered value slice, so every definition and theorem is parametrised by an
  arbitrary `hash_sequence : List Value → Nat`; both `process_series` and `matches`
  receive the same parameter, mirroring the single free function in the source.
* `HashMap<u64, Vec<Occurrence>>` is modelled as an association list
  `List (Nat × List Occurrence)`; `entry(d).or_insert(vec![]).push(o)` becomes
  `updateEntry`, `get` becomes `lookupDigest`, `values()` becomes `map Prod.snd`
  (Rust map-iteration order is unspecified; the model fixes insertion order).
* Operations that can panic in Rust (slicing `&xs[a..b]`, indexing `xs[i]`) are
  modelled with checked variants returning `Option`; a panic is `none` for the
  whole call.
* The scan carries two ghost fields (`filter_args`, `hashed_args`) recording the
  argument of every `sequence_filter` call and of every `hash_sequence` call, in
  order; they are instrumentation only and do not influence the computation.
-/

namespace TimeseriesFingerprint

/-- One sliding-window match (mirrors `struct Occurrence` in src/fingerprint.rs):
boundary index and metadata of the first and last record of the window. -/
structure Occurrence (Index : Type) (Metadata : Type) where
  start_index : Index
  start_meta : Metadata
  end_index : Index
  end_meta : Metadata
deriving DecidableEq, Repr

/-- The fingerprinting engine (mirrors `struct Fingerprinter`): the four
configuration fields fixed at construction and the digest → occurrences index. -/
structure Fingerprinter (Data Index Metadata Value : Type) where
  get_value : Data → Value
  get_index : Data → Index
  get_meta : Data → Metadata
  window_size : Nat
  sequence_filter : List Value → Bool
  occurrences : List (Nat × List (Occurrence Index Metadata))

variable {Data Index Metadata Value : Type}

/-- Rust `Fingerprinter::new`: stores the configuration, starts with an empty index. -/
def Fingerprinter.new (get_value : Data → Value) (get_index : Data → Index)
    (get_meta : Data → Metadata) (window_size : Nat)
    (sequence_filter : List Value → Bool) : Fingerprinter Data Index Metadata Value :=
  { get_value := get_value
    get_index := get_index
    get_meta := get_meta
    window_size := window_size
    sequence_filter := sequence_filter
    occurrences := [] }

/-- Checked slice `&xs[s..e]`: panics (`none`) unless `s ≤ e ≤ xs.length`. -/
def slice (xs : List α) (s e : Nat) : Option (List α) :=
  if s ≤ e ∧ e ≤ xs.length then some ((xs.drop s).take (e - s)) else none

/-- Rust `map.entry(digest).or_insert(vec![]).push(occ)`: append `occ` to the list
keyed by `digest`, creating the entry at the end of the list if absent. -/
def updateEntry (m : List (Nat × List (Occurrence Index Metadata))) (digest : Nat)
    (occ : Occurrence Index Metadata) : List (Nat × List (Occurrence Index Metadata)) :=
  match m with
  | [] => [(digest, [occ])]
  | (d, l) :: rest =>
    if d = digest then (d, l ++ [occ]) :: rest
    else (d, l) :: updateEntry rest digest occ

/-- Rust `map.get(&digest)` on the association-list model of the `HashMap`. -/
def lookupDigest (m : List (Nat × List (Occurrence Index Metadata))) (digest : Nat) :
    Option (List (Occurrence Index Metadata)) :=
  match m with
  | [] => none
  | (d, l) :: rest => if d = digest then some l else lookupDigest rest digest

/-- State threaded through the sliding-window loop of `process_series`:
the occurrence index being built plus two ghost traces (arguments of every
`sequence_filter` evaluation and of every `hash_sequence` computation, in order). -/
structure ScanState (Index Metadata Value : Type) where
  occurrences : List (Nat × List (Occurrence Index Metadata))
  filter_args : List (List Value)
  hashed_args : List (List Value)
deriving Repr

/-- One iteration of the `for w_start in 0..(data.len() - window_size + 1)` loop of
`process_series`, at offset `w_start` (lines 64–85 of src/fingerprint.rs).
Panicking operations are checked: `none` models a Rust panic. -/
def scan_step (hash_sequence : List Value → Nat)
    (fp : Fingerprinter Data Index Metadata Value)
    (data : List Data) (values : List Value)
    (st : ScanState Index Metadata Value) (w_start : Nat) :
    Option (ScanState Index Metadata Value) := do
  let w_end := w_start + fp.window_size
  let w_data ← slice data w_start w_end
  let w_values ← slice values w_start w_end
  let st := { st with filter_args := st.filter_args ++ [w_values] }
  if !fp.sequence_filter w_values then
    return st
  let digest := hash_sequence w_values
  let st := { st with hashed_args := st.hashed_args ++ [w_values] }
  let first_record ← w_data[0]?
  let last_record ← w_data[w_data.length - 1]?
  let occ : Occurrence Index Metadata :=
    { start_index := fp.get_index first_record
      start_meta := fp.get_meta first_record
      end_index := fp.get_index last_record
      end_meta := fp.get_meta last_record }
  return { st with occurrences := updateEntry st.occurrences digest occ }

/-- The whole sliding-window loop of `process_series`, starting from the freshly
cleared index (`self.occurrences = HashMap::new()`) and the value projections
(`data.iter().map(self.get_value).collect_vec()`). -/
def run_scan (hash_sequence : List Value → Nat)
    (fp : Fingerprinter Data Index Metadata Value) (data : List Data) :
    Option (ScanState Index Metadata Value) :=
  let values := data.map fp.get_value
  (List.range (data.length - fp.window_size + 1)).foldlM
    (scan_step hash_sequence fp data values) ⟨[], [], []⟩

/-- Rust `Fingerprinter::process_series` (lines 53–86 of src/fingerprint.rs):
early return when the series is shorter than the window (the index is NOT
cleared on that path), otherwise rebuild the index from scratch by the sliding
scan. `none` models a panic during the scan. -/
def process_series (hash_sequence : List Value → Nat)
    (fp : Fingerprinter Data Index Metadata Value) (data : List Data) :
    Option (Fingerprinter Data Index Metadata Value) :=
  if data.length < fp.window_size then
    some fp
  else
    (run_scan hash_sequence fp data).map
      (fun st => { fp with occurrences := st.occurrences })

/-- Rust `Fingerprinter::matches` (lines 88–96): digest the probe sequence with the
same `hash_sequence` and look it up in the current index; `some` is Rust's
`Some(matches.iter())` (modelled as the stored list), `none` is Rust's `None`. -/
def Fingerprinter.matches (hash_sequence : List Value → Nat)
    (fp : Fingerprinter Data Index Metadata Value) (sequence : List Value) :
    Option (List (Occurrence Index Metadata)) :=
  let digest := hash_sequence sequence
  lookupDigest fp.occurrences digest

/-- Rust `Fingerprinter::duplicates` (lines 98–100): every occurrence list of the
index whose length exceeds one. -/
def duplicates (fp : Fingerprinter Data Index Metadata Value) :
    List (List (Occurrence Index Metadata)) :=
  (fp.occurrences.map Prod.snd).filter (fun v => 1 < v.length)

/-- A sequence of `process_series` calls on one Fingerprinter instance;
`none` as soon as one call panics. -/
def run_calls (hash_sequence : List Value → Nat)
    (fp : Fingerprinter Data Index Metadata Value) (series : List (List Data)) :
    Option (Fingerprinter Data Index Metadata Value) :=
  series.foldlM (process_series hash_sequence) fp

/-! ### Spec-side derived notions used in theorem statements -/

/-- The value slice of the window starting at offset `s`:
`values[s..s+window_size]` where `values = data.map get_value`. -/
def window_values (fp : Fingerprinter Data Index Metadata Value) (data : List Data)
    (s : Nat) : List Value :=
  ((data.map fp.get_value).drop s).take fp.window_size

/-- The start offsets of the candidate windows that pass `sequence_filter`,
in scan order (left to right over the series). -/
def accepted_starts (fp : Fingerprinter Data Index Metadata Value)
    (data : List Data) : List Nat :=
  (List.range (data.length - fp.window_size + 1)).filter
    (fun s => fp.sequence_filter (window_values fp data s))

/-- The occurrence recorded for the window starting at offset `s`: boundary
projections of the first record `data[s]` and the last record
`data[s + window_size - 1]` of the window. -/
def occurrence_at [Inhabited Data] (fp : Fingerprinter Data Index Metadata Value)
    (data : List Data) (s : Nat) : Occurrence Index Metadata :=
  let first_record := data.getD s default
  let last_record := data.getD (s + fp.window_size - 1) default
  { start_index := fp.get_index first_record
    start_meta := fp.get_meta first_record
    end_index := fp.get_index last_record
    end_meta := fp.get_meta last_record }

/-- Returns `some l` when `l` is nonempty, `none` when `l = []`: the shape of a
`HashMap` lookup whose entries are exactly the elements of `l`. -/
def optList (l : List α) : Option (List α) :=
  match l with
  | [] => none
  | _ => some l

/-! ### Basic lemmas about the association-list map and helpers -/

theorem optList_getD (l : List α) : (optList l).getD [] = l := by
  cases l <;> rfl

theorem optList_eq_none_iff (l : List α) : optList l = none ↔ l = [] := by
  cases l <;> simp [optList]

theorem optList_eq_some_iff (l l' : List α) : optList l = some l' ↔ l = l' ∧ l ≠ [] := by
  cases l with
  | nil => simp [optList]
  | cons a tl => simp [optList]

theorem optList_concat (l : List α) (x : α) : optList (l ++ [x]) = some (l ++ [x]) := by
  cases l <;> rfl

theorem slice_eq_some {xs : List α} {s e : Nat} (h1 : s ≤ e) (h2 : e ≤ xs.length) :
    slice xs s e = some ((xs.drop s).take (e - s)) := by
  simp [slice, h1, h2]

theorem lookup_updateEntry (m : List (Nat × List (Occurrence Index Metadata)))
    (digest : Nat) (occ : Occurrence Index Metadata) (d' : Nat) :
    lookupDigest (updateEntry m digest occ) d' =
      if d' = digest then some ((lookupDigest m digest).getD [] ++ [occ])
      else lookupDigest m d' := by
  induction m with
  | nil =>
    by_cases h : d' = digest
    · simp [updateEntry, lookupDigest, h]
    · simp [updateEntry, lookupDigest, h, Ne.symm h]
  | cons hd tl ih =>
    obtain ⟨d, l⟩ := hd
    by_cases hd1 : d = digest
    · subst hd1
      by_cases hd2 : d' = d
      · simp [updateEntry, lookupDigest, hd2]
      · simp [updateEntry, lookupDigest, hd2, Ne.symm hd2]
    · by_cases hd2 : d' = d
      · subst hd2
        simp [updateEntry, lookupDigest, hd1, Ne.symm hd1]
      · simp [updateEntry, lookupDigest, hd1, hd2, Ne.symm hd2, ih]

theorem keys_updateEntry (m : List (Nat × List (Occurrence Index Metadata)))
    (digest : Nat) (occ : Occurrence Index Metadata) :
    (updateEntry m digest occ).map Prod.fst =
      if digest ∈ m.map Prod.fst then m.map Prod.fst else m.map Prod.fst ++ [digest] := by
  induction m with
  | nil => simp [updateEntry]
  | cons hd tl ih =>
    obtain ⟨d, l⟩ := hd
    by_cases hd1 : d = digest
    · subst hd1
      simp [updateEntry]
    · simp only [updateEntry, if_neg hd1, List.map_cons, List.mem_cons, ih]
      by_cases hmem : digest ∈ tl.map Prod.fst
      · simp [hmem, Ne.symm hd1]
      · simp [hmem, Ne.symm hd1]

theorem nodup_keys_updateEntry {m : List (Nat × List (Occurrence Index Metadata))}
    (hm : (m.map Prod.fst).Nodup) (digest : Nat) (occ : Occurrence Index Metadata) :
    ((updateEntry m digest occ).map Prod.fst).Nodup := by
  rw [keys_updateEntry]
  by_cases hmem : digest ∈ m.map Prod.fst
  · simpa [hmem]
  · rw [if_neg hmem]
    refine List.Nodup.append hm (List.nodup_singleton digest) ?_
    intro a ha hb
    rw [List.mem_singleton] at hb
    subst hb
    exact hmem ha

theorem lookup_isSome_iff_mem_keys (m : List (Nat × List (Occurrence Index Metadata)))
    (d : Nat) : (lookupDigest m d).isSome ↔ d ∈ m.map Prod.fst := by
  induction m with
  | nil => simp [lookupDigest]
  | cons hd tl ih =>
    obtain ⟨d', l⟩ := hd
    by_cases h : d' = d
    · subst h; simp [lookupDigest]
    · simp [lookupDigest, h, Ne.symm h, ih]

theorem lookup_mem_values {m : List (Nat × List (Occurrence Index Metadata))}
    {d : Nat} {l : List (Occurrence Index Metadata)} (h : lookupDigest m d = some l) :
    l ∈ m.map Prod.snd := by
  induction m with
  | nil => simp [lookupDigest] at h
  | cons hd tl ih =>
    obtain ⟨d', l'⟩ := hd
    by_cases hd1 : d' = d
    · subst hd1
      simp [lookupDigest] at h
      simp [h]
    · simp only [lookupDigest, if_neg hd1] at h
      simp [ih h]

theorem mem_values_lookup {m : List (Nat × List (Occurrence Index Metadata))}
    (hm : (m.map Prod.fst).Nodup) {l : List (Occurrence Index Metadata)}
    (h : l ∈ m.map Prod.snd) : ∃ d, lookupDigest m d = some l := by
  induction m with
  | nil => simp at h
  | cons hd tl ih =>
    obtain ⟨d', l'⟩ := hd
    simp only [List.map_cons, List.nodup_cons] at hm
    rcases List.mem_cons.mp h with h1 | h2
    · refine ⟨d', ?_⟩
      simp only [lookupDigest, if_pos rfl]
      exact congrArg some h1.symm
    · obtain ⟨d, hd⟩ := ih hm.2 h2
      refine ⟨d, ?_⟩
      have hne : d' ≠ d := by
        intro hEq
        subst hEq
        exact hm.1 ((lookup_isSome_iff_mem_keys tl d').mp (by simp [hd]))
      simp [lookupDigest, hne, hd]

theorem values_nonempty_updateEntry {m : List (Nat × List (Occurrence Index Metadata))}
    (hm : ∀ l ∈ m.map Prod.snd, l ≠ []) (digest : Nat) (occ : Occurrence Index Metadata) :
    ∀ l ∈ (updateEntry m digest occ).map Prod.snd, l ≠ [] := by
  induction m with
  | nil => simp [updateEntry]
  | cons hd tl ih =>
    obtain ⟨d, l'⟩ := hd
    simp only [List.map_cons, List.mem_cons, forall_eq_or_imp] at hm
    by_cases hd1 : d = digest
    · subst hd1
      intro l hl
      simp [updateEntry] at hl
      rcases hl with h1 | h2
      · subst h1; simp
      · exact hm.2 l (List.mem_map.mpr ⟨_, h2.choose_spec, rfl⟩)
    · intro l hl
      simp only [updateEntry] at hl
      rw [if_neg hd1] at hl
      simp only [List.map_cons, List.mem_cons] at hl
      rcases hl with h1 | h2
      · subst h1; exact hm.1
      · exact ih hm.2 l h2

/-- The `foldlM` over `Option` distributes over list append. -/
theorem foldlM_option_append (f : β → α → Option β) (l₁ l₂ : List α) (b : β) :
    (l₁ ++ l₂).foldlM f b = (l₁.foldlM f b).bind (fun b' => l₂.foldlM f b') := by
  induction l₁ generalizing b with
  | nil => simp
  | cons a l ih =>
    simp only [List.cons_append, List.foldlM_cons]
    cases f b a <;> simp [ih]

/-! ### Characterization of one loop iteration -/

/-- The state produced by one successful loop iteration at offset `k`. -/
def scan_next [Inhabited Data] (hash_sequence : List Value → Nat)
    (fp : Fingerprinter Data Index Metadata Value) (data : List Data)
    (st : ScanState Index Metadata Value) (k : Nat) : ScanState Index Metadata Value :=
  if fp.sequence_filter (window_values fp data k) then
    { occurrences := updateEntry st.occurrences
        (hash_sequence (window_values fp data k)) (occurrence_at fp data k)
      filter_args := st.filter_args ++ [window_values fp data k]
      hashed_args := st.hashed_args ++ [window_values fp data k] }
  else
    { st with filter_args := st.filter_args ++ [window_values fp data k] }

theorem scan_step_eq [Inhabited Data] {hash_sequence : List Value → Nat}
    {fp : Fingerprinter Data Index Metadata Value} {data : List Data} {k : Nat}
    (h1 : 1 ≤ fp.window_size) (hk : k + fp.window_size ≤ data.length)
    (st : ScanState Index Metadata Value) :
    scan_step hash_sequence fp data (data.map fp.get_value) st k =
      some (scan_next hash_sequence fp data st k) := by
  have hks : k ≤ k + fp.window_size := Nat.le_add_right k fp.window_size
  have hk0 : k < data.length := by omega
  have hk1 : k + fp.window_size - 1 < data.length := by omega
  have h2 : slice data k (k + fp.window_size) =
      some ((data.drop k).take fp.window_size) := by
    rw [slice_eq_some hks hk, Nat.add_sub_cancel_left]
  have h3 : slice (data.map fp.get_value) k (k + fp.window_size) =
      some (window_values fp data k) := by
    rw [slice_eq_some hks (by simpa using hk), Nat.add_sub_cancel_left]
    rfl
  have hwlen : ((data.drop k).take fp.window_size).length = fp.window_size := by
    simp only [List.length_take, List.length_drop]
    omega
  have hfirst : ((data.drop k).take fp.window_size)[(0 : Nat)]? =
      some (data.getD k default) := by
    rw [List.getElem?_take, if_pos (by omega), List.getElem?_drop]
    simp [List.getD_eq_getElem?_getD, List.getElem?_eq_getElem hk0]
  have hlast : ((data.drop k).take fp.window_size)[fp.window_size - 1]? =
      some (data.getD (k + fp.window_size - 1) default) := by
    rw [List.getElem?_take, if_pos (by omega), List.getElem?_drop]
    have harith : k + (fp.window_size - 1) = k + fp.window_size - 1 := by omega
    rw [harith]
    simp [List.getD_eq_getElem?_getD, List.getElem?_eq_getElem hk1]
  by_cases hf : fp.sequence_filter (window_values fp data k)
  · simp [scan_step, scan_next, h2, h3, hwlen, hfirst, hlast, hf, occurrence_at]
  · simp [scan_step, scan_next, h2, h3, hf]

/-- An invariant preserved by every successful `f`-step is preserved by
`foldlM f` over `Option`. -/
theorem foldlM_option_invariant {P : β → Prop} {f : β → α → Option β}
    (hf : ∀ b a b', P b → f b a = some b' → P b') :
    ∀ (l : List α) (b b' : β), P b → l.foldlM f b = some b' → P b' := by
  intro l
  induction l with
  | nil =>
    intro b b' hb h
    simp at h
    exact h ▸ hb
  | cons a tl ih =>
    intro b b' hb h
    simp only [List.foldlM_cons] at h
    cases hfa : f b a with
    | none => simp [hfa] at h
    | some b'' =>
      simp only [hfa, Option.bind_some] at h
      exact ih b'' b' (hf b a b'' hb hfa) h

/-! ### Full characterization of the sliding-window scan -/

/-- Shorthand for the acceptance test of the window at offset `s`. -/
def accepts (fp : Fingerprinter Data Index Metadata Value) (data : List Data)
    (s : Nat) : Bool :=
  fp.sequence_filter (window_values fp data s)

theorem scan_next_pos [Inhabited Data] {hash_sequence : List Value → Nat}
    {fp : Fingerprinter Data Index Metadata Value} {data : List Data} {k : Nat}
    (st : ScanState Index Metadata Value)
    (hf : fp.sequence_filter (window_values fp data k) = true) :
    scan_next hash_sequence fp data st k =
      { occurrences := updateEntry st.occurrences
          (hash_sequence (window_values fp data k)) (occurrence_at fp data k)
        filter_args := st.filter_args ++ [window_values fp data k]
        hashed_args := st.hashed_args ++ [window_values fp data k] } := by
  simp [scan_next, hf]

theorem scan_next_neg [Inhabited Data] {hash_sequence : List Value → Nat}
    {fp : Fingerprinter Data Index Metadata Value} {data : List Data} {k : Nat}
    (st : ScanState Index Metadata Value)
    (hf : fp.sequence_filter (window_values fp data k) = false) :
    scan_next hash_sequence fp data st k =
      { st with filter_args := st.filter_args ++ [window_values fp data k] } := by
  simp [scan_next, hf]

theorem scan_upto [Inhabited Data] {hash_sequence : List Value → Nat}
    {fp : Fingerprinter Data Index Metadata Value} {data : List Data}
    (h1 : 1 ≤ fp.window_size) (hn : fp.window_size ≤ data.length) :
    ∀ k, k ≤ data.length - fp.window_size + 1 →
    ∃ st : ScanState Index Metadata Value,
      (List.range k).foldlM (scan_step hash_sequence fp data (data.map fp.get_value))
        ⟨[], [], []⟩ = some st ∧
      st.filter_args = (List.range k).map (window_values fp data) ∧
      st.hashed_args =
        ((List.range k).filter (accepts fp data)).map (window_values fp data) ∧
      (∀ d, lookupDigest st.occurrences d =
        optList ((((List.range k).filter (accepts fp data)).filter
          (fun s => decide (hash_sequence (window_values fp data s) = d))).map
            (occurrence_at fp data))) ∧
      (st.occurrences.map Prod.fst).Nodup := by
  intro k
  induction k with
  | zero =>
    intro _
    refine ⟨⟨[], [], []⟩, by simp, by simp, by simp, fun d => by simp [lookupDigest, optList], by simp⟩
  | succ k ih =>
    intro hk1
    obtain ⟨st, hfold, hfa, hha, hlook, hnd⟩ := ih (by omega)
    have hkw : k + fp.window_size ≤ data.length := by omega
    refine ⟨scan_next hash_sequence fp data st k, ?_, ?_, ?_, ?_, ?_⟩
    · rw [List.range_succ, foldlM_option_append, hfold]
      simp [scan_step_eq h1 hkw st]
    · by_cases hf : accepts fp data k <;>
        simp [scan_next, accepts, hf, List.range_succ, hfa] at * <;> simp [hf, hfa]
    · by_cases hf : accepts fp data k
      · have hf' : fp.sequence_filter (window_values fp data k) = true := hf
        simp [scan_next, hf', List.range_succ, List.filter_append, hha, accepts, hf']
      · have hf' : fp.sequence_filter (window_values fp data k) = false := by
          simpa [accepts] using hf
        simp [scan_next, hf', List.range_succ, List.filter_append, hha, accepts]
    · intro d
      by_cases hf : accepts fp data k
      · have hf' : fp.sequence_filter (window_values fp data k) = true := hf
        rw [scan_next_pos st hf']
        rw [lookup_updateEntry]
        by_cases hd : d = hash_sequence (window_values fp data k)
        · subst hd
          rw [if_pos rfl, hlook, optList_getD]
          rw [List.range_succ, List.filter_append, List.filter_append]
          simp only [hf, List.filter_cons, List.filter_nil, decide_True, eq_self_iff_true,
            if_true, List.map_append, List.map_cons, List.map_nil]
          rw [optList_concat]
        · rw [if_neg hd, hlook]
          rw [List.range_succ, List.filter_append, List.filter_append]
          have hdec : decide (hash_sequence (window_values fp data k) = d) = false := by
            simpa using fun h => hd h.symm
          simp [List.filter_cons, hf, hdec]
      · have hf' : fp.sequence_filter (window_values fp data k) = false := by
          simpa [accepts] using hf
        rw [scan_next_neg st hf']
        rw [List.range_succ, List.filter_append]
        simp [List.filter_cons, accepts, hf', hlook]
    · by_cases hf : accepts fp data k
      · have hf' : fp.sequence_filter (window_values fp data k) = true := hf
        rw [scan_next_pos st hf']
        exact nodup_keys_updateEntry hnd _ _
      · have hf' : fp.sequence_filter (window_values fp data k) = false := by
          simpa [accepts] using hf
        rw [scan_next_neg st hf']
        exact hnd

theorem run_scan_spec [Inhabited Data] {hash_sequence : List Value → Nat}
    {fp : Fingerprinter Data Index Metadata Value} {data : List Data}
    (h1 : 1 ≤ fp.window_size) (hn : fp.window_size ≤ data.length) :
    ∃ st : ScanState Index Metadata Value,
      run_scan hash_sequence fp data = some st ∧
      st.filter_args =
        (List.range (data.length - fp.window_size + 1)).map (window_values fp data) ∧
      st.hashed_args = (accepted_starts fp data).map (window_values fp data) ∧
      (∀ d, lookupDigest st.occurrences d =
        optList (((accepted_starts fp data).filter
          (fun s => decide (hash_sequence (window_values fp data s) = d))).map
            (occurrence_at fp data))) ∧
      (st.occurrences.map Prod.fst).Nodup := by
  obtain ⟨st, hfold, hfa, hha, hlook, hnd⟩ :=
    scan_upto h1 hn (data.length - fp.window_size + 1) le_rfl
  have hacc : accepted_starts fp data =
      (List.range (data.length - fp.window_size + 1)).filter (accepts fp data) := rfl
  exact ⟨st, hfold, hfa, by rw [hacc]; exact hha, fun d => by rw [hacc]; exact hlook d, hnd⟩

theorem process_series_short {hash_sequence : List Value → Nat}
    {fp : Fingerprinter Data Index Metadata Value} {data : List Data}
    (h : data.length < fp.window_size) :
    process_series hash_sequence fp data = some fp := by
  simp [process_series, h]

theorem process_series_spec [Inhabited Data] (hash_sequence : List Value → Nat)
    (fp : Fingerprinter Data Index Metadata Value) (data : List Data)
    (h1 : 1 ≤ fp.window_size) (hn : fp.window_size ≤ data.length) :
    ∃ fp' : Fingerprinter Data Index Metadata Value,
      process_series hash_sequence fp data = some fp' ∧
      fp'.get_value = fp.get_value ∧ fp'.get_index = fp.get_index ∧
      fp'.get_meta = fp.get_meta ∧ fp'.window_size = fp.window_size ∧
      fp'.sequence_filter = fp.sequence_filter ∧
      (∀ d, lookupDigest fp'.occurrences d =
        optList (((accepted_starts fp data).filter
          (fun s => decide (hash_sequence (window_values fp data s) = d))).map
            (occurrence_at fp data))) ∧
      (fp'.occurrences.map Prod.fst).Nodup := by
  obtain ⟨st, hrun, _, _, hlook, hnd⟩ := run_scan_spec h1 hn
  refine ⟨{ fp with occurrences := st.occurrences }, ?_, rfl, rfl, rfl, rfl, rfl, hlook, hnd⟩
  simp [process_series, Nat.not_lt.mpr hn, hrun]

/-! ### Shape of one step's effect on the occurrence index -/

theorem scan_step_occurrences {hash_sequence : List Value → Nat}
    {fp : Fingerprinter Data Index Metadata Value} {data : List Data}
    {values : List Value} {st st' : ScanState Index Metadata Value} {k : Nat}
    (h : scan_step hash_sequence fp data values st k = some st') :
    st'.occurrences = st.occurrences ∨
    ∃ w_values d occ, fp.sequence_filter w_values = true ∧
      st'.occurrences = updateEntry st.occurrences d occ := by
  simp only [scan_step] at h
  cases hA : slice data k (k + fp.window_size) with
  | none => rw [hA] at h; simp at h
  | some w_data =>
    rw [hA] at h
    simp only [Option.bind_eq_bind, Option.some_bind] at h
    cases hB : slice values k (k + fp.window_size) with
    | none => rw [hB] at h; simp at h
    | some w_values =>
      rw [hB] at h
      simp only [Option.bind_eq_bind, Option.some_bind] at h
      by_cases hfil : fp.sequence_filter w_values
      · simp only [hfil, Bool.not_true, Bool.false_eq_true, if_false] at h
        cases hC : w_data[(0 : Nat)]? with
        | none => rw [hC] at h; simp at h
        | some fr =>
          rw [hC] at h
          simp only [Option.bind_eq_bind, Option.some_bind] at h
          cases hD : w_data[w_data.length - 1]? with
          | none => rw [hD] at h; simp at h
          | some lr =>
            rw [hD] at h
            simp only [Option.pure_def, Option.bind_eq_bind, Option.some_bind,
              Option.some_inj] at h
            subst h
            exact Or.inr ⟨w_values, _, _, hfil, rfl⟩
      · have hfil' : fp.sequence_filter w_values = false := by simpa using hfil
        simp only [hfil', Bool.not_false, if_true, Option.pure_def, Option.some_inj] at h
        subst h
        exact Or.inl rfl

/-! ### Invariants of reachable occurrence indexes -/

/-- Every value list of the index is nonempty and its keys are distinct. -/
def GoodMap (m : List (Nat × List (Occurrence Index Metadata))) : Prop :=
  (∀ l ∈ m.map Prod.snd, l ≠ []) ∧ (m.map Prod.fst).Nodup

theorem goodMap_nil : GoodMap ([] : List (Nat × List (Occurrence Index Metadata))) :=
  ⟨by simp, by simp⟩

theorem goodMap_updateEntry {m : List (Nat × List (Occurrence Index Metadata))}
    (hm : GoodMap m) (d : Nat) (occ : Occurrence Index Metadata) :
    GoodMap (updateEntry m d occ) :=
  ⟨values_nonempty_updateEntry hm.1 d occ, nodup_keys_updateEntry hm.2 d occ⟩

theorem process_series_occ_invariant {P : List (Nat × List (Occurrence Index Metadata)) → Prop}
    (hup : ∀ m d occ, P m → P (updateEntry m d occ)) (hnil : P [])
    {hash_sequence : List Value → Nat} {fp fp' : Fingerprinter Data Index Metadata Value}
    {data : List Data} (hP : P fp.occurrences)
    (h : process_series hash_sequence fp data = some fp') : P fp'.occurrences := by
  by_cases hlen : data.length < fp.window_size
  · rw [process_series_short hlen] at h
    cases h
    exact hP
  · simp only [process_series, if_neg hlen, Option.map_eq_some'] at h
    obtain ⟨st, hst, hfp'⟩ := h
    subst hfp'
    show P st.occurrences
    have := foldlM_option_invariant (P := fun s : ScanState Index Metadata Value => P s.occurrences)
      (f := scan_step hash_sequence fp data (data.map fp.get_value)) ?_
      (List.range (data.length - fp.window_size + 1)) ⟨[], [], []⟩ st hnil hst
    · exact this
    · intro s a s' hs hstep
      rcases scan_step_occurrences hstep with hsame | ⟨_, d, occ, _, hupd⟩
      · rw [hsame]; exact hs
      · rw [hupd]; exact hup _ d occ hs

/-- The `process_series` call never changes the configuration fields. -/
theorem process_series_config {hash_sequence : List Value → Nat}
    {fp fp' : Fingerprinter Data Index Metadata Value} {data : List Data}
    (h : process_series hash_sequence fp data = some fp') :
    fp'.get_value = fp.get_value ∧ fp'.get_index = fp.get_index ∧
    fp'.get_meta = fp.get_meta ∧ fp'.window_size = fp.window_size ∧
    fp'.sequence_filter = fp.sequence_filter := by
  by_cases hlen : data.length < fp.window_size
  · rw [process_series_short hlen] at h
    cases h
    exact ⟨rfl, rfl, rfl, rfl, rfl⟩
  · simp only [process_series, if_neg hlen, Option.map_eq_some'] at h
    obtain ⟨st, _, hfp'⟩ := h
    subst hfp'
    exact ⟨rfl, rfl, rfl, rfl, rfl⟩

theorem run_calls_good {hash_sequence : List Value → Nat}
    {fp fp' : Fingerprinter Data Index Metadata Value} {series : List (List Data)}
    (hP : GoodMap fp.occurrences)
    (h : run_calls hash_sequence fp series = some fp') : GoodMap fp'.occurrences := by
  refine foldlM_option_invariant
    (P := fun g : Fingerprinter Data Index Metadata Value => GoodMap g.occurrences)
    (f := process_series hash_sequence) ?_ series fp fp' hP h
  intro g d g' hg hstep
  exact process_series_occ_invariant (P := GoodMap)
    (fun m dg occ hm => goodMap_updateEntry hm dg occ) goodMap_nil hg hstep

/-! ### The always-false filter keeps the index empty -/

theorem process_series_const_false {hash_sequence : List Value → Nat}
    {fp fp' : Fingerprinter Data Index Metadata Value} {data : List Data}
    (hfilt : ∀ vs, fp.sequence_filter vs = false) (hempty : fp.occurrences = [])
    (h : process_series hash_sequence fp data = some fp') :
    fp'.occurrences = [] := by
  by_cases hlen : data.length < fp.window_size
  · rw [process_series_short hlen] at h
    cases h
    exact hempty
  · simp only [process_series, if_neg hlen, Option.map_eq_some'] at h
    obtain ⟨st, hst, hfp'⟩ := h
    subst hfp'
    show st.occurrences = []
    refine foldlM_option_invariant
      (P := fun s : ScanState Index Metadata Value => s.occurrences = [])
      (f := scan_step hash_sequence fp data (data.map fp.get_value)) ?_
      (List.range (data.length - fp.window_size + 1)) ⟨[], [], []⟩ st rfl hst
    intro s a s' hs hstep
    rcases scan_step_occurrences hstep with hsame | ⟨wv, _, _, htrue, _⟩
    · rw [hsame]; exact hs
    · rw [hfilt wv] at htrue
      cases htrue

/-! ### Determinism helpers -/

theorem optList_isSome_iff (l : List α) : (optList l).isSome ↔ l ≠ [] := by
  cases l <;> simp [optList]

theorem optList_of_ne_nil {l : List α} (h : l ≠ []) : optList l = some l := by
  cases l with
  | nil => exact absurd rfl h
  | cons a tl => rfl

theorem two_le_length_of_mem_ne {l : List α} {x y : α} (hx : x ∈ l) (hy : y ∈ l)
    (hxy : x ≠ y) : 2 ≤ l.length := by
  cases l with
  | nil => simp at hx
  | cons a tl =>
    cases tl with
    | nil =>
      simp at hx hy
      exact absurd (hx.trans hy.symm) hxy
    | cons b tl2 => simp

/-- The scan never reads the previous occurrence index. -/
theorem run_scan_occ_independent (hash_sequence : List Value → Nat)
    (fp : Fingerprinter Data Index Metadata Value)
    (o : List (Nat × List (Occurrence Index Metadata))) (data : List Data) :
    run_scan hash_sequence { fp with occurrences := o } data =
      run_scan hash_sequence fp data := rfl

theorem process_series_occ_independent {hash_sequence : List Value → Nat}
    {fp : Fingerprinter Data Index Metadata Value} {data : List Data}
    (hn : fp.window_size ≤ data.length)
    (o : List (Nat × List (Occurrence Index Metadata))) :
    process_series hash_sequence { fp with occurrences := o } data =
      process_series hash_sequence fp data := by
  have hlen : ¬data.length < fp.window_size := Nat.not_lt.mpr hn
  simp only [process_series]
  rw [if_neg hlen, if_neg hlen, run_scan_occ_independent]

theorem process_series_idem {hash_sequence : List Value → Nat}
    {fp fp' : Fingerprinter Data Index Metadata Value} {data : List Data}
    (h : process_series hash_sequence fp data = some fp') :
    process_series hash_sequence fp' data = some fp' := by
  by_cases hlen : data.length < fp.window_size
  · rw [process_series_short hlen] at h
    cases h
    exact process_series_short hlen
  · have hn : fp.window_size ≤ data.length := Nat.not_lt.mp hlen
    simp only [process_series, if_neg hlen, Option.map_eq_some'] at h
    obtain ⟨st, hst, hfp'⟩ := h
    subst hfp'
    rw [process_series_occ_independent hn st.occurrences]
    simp [process_series, if_neg hlen, hst]

/-! ### Concrete fixtures for witnesses and counterexamples -/

/-- A concrete order-sensitive digest function standing in for the
`DefaultHasher`-based `hash_sequence` in concrete evaluations. -/
def hashW : List Nat → Nat := fun l => l.foldl (fun h v => h * 31 + v + 1) 7

/-- A window-1 fingerprinter over `Nat` records with identity projections. -/
def fpW1 : Fingerprinter Nat Nat Nat Nat := Fingerprinter.new id id id 1 (fun _ => true)

/-- A window-2 fingerprinter over `Nat` records with identity projections. -/
def fpW2 : Fingerprinter Nat Nat Nat Nat := Fingerprinter.new id id id 2 (fun _ => true)

/-! ### Claims -/

/-- C1 counterexample: the claim asserts that `process_series` on a series
shorter than `window_size` always leaves the occurrence index empty and a
subsequent `duplicates()` yields nothing. On the code this is false: the early
return at the top of `process_series` fires before the index is cleared, so a
prior index survives. Concretely, processing `[5, 5]` with `window_size = 1`
and then processing the empty series leaves a nonempty index and a nonempty
`duplicates()` result. -/
theorem claim_C1_counterexample :
    ((process_series hashW fpW1 [5, 5]).bind
      (fun fp1 => process_series hashW fp1 [])).map duplicates ≠ some [] ∧
    ((process_series hashW fpW1 [5, 5]).bind
      (fun fp1 => process_series hashW fp1 [])).map
        (fun fp2 => fp2.occurrences) ≠ some [] := by
  decide

/-- C1 (amended): for every input series shorter than `window_size`,
`process_series` returns leaving the fingerprinter exactly as it was (the
previous occurrence index is retained, not discarded); in particular, when the
index was empty before the call — e.g. on a freshly constructed
Fingerprinter — it stays empty and `duplicates()` yields nothing. -/
theorem claim_C1_amended (hash_sequence : List Value → Nat)
    (fp : Fingerprinter Data Index Metadata Value) (data : List Data)
    (h : data.length < fp.window_size) :
    process_series hash_sequence fp data = some fp ∧
    (fp.occurrences = [] → duplicates fp = []) := by
  refine ⟨process_series_short h, fun he => ?_⟩
  simp [duplicates, he]

theorem claim_C1_witness :
    process_series hashW fpW2 [9] = some fpW2 ∧
    (fpW2.occurrences = [] → duplicates fpW2 = []) :=
  claim_C1_amended hashW fpW2 [9] (by decide)

/-- C2: with `window_size = 0` the code performs no validation anywhere — there
is no InvalidConfiguration condition in the program — and `process_series` with
a filter that accepts the empty slice reaches `w_data[0]` on an empty slice and
panics with an index-out-of-range error (modelled as `none`), on the empty
series as well as on a nonempty one. -/
theorem claim_C2_panic :
    process_series hashW (Fingerprinter.new (id : Nat → Nat) id id 0 (fun _ => true))
      [] = none ∧
    process_series hashW (Fingerprinter.new (id : Nat → Nat) id id 0 (fun _ => true))
      [7] = none :=
  ⟨rfl, rfl⟩

/-- C3: for a series of length `n ≥ window_size ≥ 1`, the scan behind
`process_series` considers exactly the `n - window_size + 1` candidate windows
at start offsets `0, 1, …, n - window_size` (each the contiguous value slice
`[w, w + window_size)`), evaluates `sequence_filter` exactly once per candidate
window, in scan order, and hashes and records exactly the windows the filter
accepts: the ghost trace of filter arguments is the full window list, the ghost
trace of hashed slices is the accepted-window list, and a digest is recorded in
the index exactly when some accepted window hashes to it. -/
theorem claim_C3 [Inhabited Data] (hash_sequence : List Value → Nat)
    (fp : Fingerprinter Data Index Metadata Value) (data : List Data)
    (h1 : 1 ≤ fp.window_size) (hn : fp.window_size ≤ data.length) :
    ∃ st : ScanState Index Metadata Value,
      run_scan hash_sequence fp data = some st ∧
      process_series hash_sequence fp data =
        some { fp with occurrences := st.occurrences } ∧
      st.filter_args =
        (List.range (data.length - fp.window_size + 1)).map (window_values fp data) ∧
      st.filter_args.length = data.length - fp.window_size + 1 ∧
      st.hashed_args = (accepted_starts fp data).map (window_values fp data) ∧
      (∀ d, (lookupDigest st.occurrences d).isSome ↔
        ∃ s ∈ accepted_starts fp data, hash_sequence (window_values fp data s) = d) := by
  obtain ⟨st, hrun, hfa, hha, hlook, _⟩ := run_scan_spec h1 hn
  refine ⟨st, hrun, ?_, hfa, by rw [hfa]; simp, hha, ?_⟩
  · simp [process_series, Nat.not_lt.mpr hn, hrun]
  · intro d
    rw [hlook d, optList_isSome_iff]
    simp [List.map_eq_nil_iff, List.filter_eq_nil_iff]

theorem claim_C3_witness :
    ∃ st : ScanState Nat Nat Nat,
      run_scan hashW fpW2 [4, 5, 6] = some st ∧
      process_series hashW fpW2 [4, 5, 6] =
        some { fpW2 with occurrences := st.occurrences } ∧
      st.filter_args =
        (List.range ([4, 5, 6].length - fpW2.window_size + 1)).map
          (window_values fpW2 [4, 5, 6]) ∧
      st.filter_args.length = [4, 5, 6].length - fpW2.window_size + 1 ∧
      st.hashed_args =
        (accepted_starts fpW2 [4, 5, 6]).map (window_values fpW2 [4, 5, 6]) ∧
      (∀ d, (lookupDigest st.occurrences d).isSome ↔
        ∃ s ∈ accepted_starts fpW2 [4, 5, 6],
          hashW (window_values fpW2 [4, 5, 6] s) = d) :=
  claim_C3 hashW fpW2 [4, 5, 6] (by decide) (by decide)

/-- C4: concatenate any sub-sequence `s` of length at least
`window_size ≥ 1` with itself, tag each record with its position (so the index
projection reports record position), accept every window; then after
`process_series`, `duplicates()` reports a group holding two Occurrences whose
`start_index` values differ by at least `s.length`. -/
theorem claim_C4 {α : Type} (hash_sequence : List α → Nat) (s : List α) (w : Nat)
    (h1 : 1 ≤ w) (hw : w ≤ s.length) :
    ∃ fp' : Fingerprinter (Nat × α) Nat Nat α,
      process_series hash_sequence
        (Fingerprinter.new Prod.snd Prod.fst Prod.fst w (fun _ => true))
        ((s ++ s).enum) = some fp' ∧
      ∃ g ∈ duplicates fp', ∃ o1 ∈ g, ∃ o2 ∈ g,
        o1.start_index + s.length ≤ o2.start_index := by
  have hs : s ≠ [] := by
    intro hnil
    rw [hnil] at hw
    simp at hw
    omega
  haveI : Inhabited (Nat × α) := ⟨(0, s.head hs)⟩
  set fp := Fingerprinter.new (Prod.snd : Nat × α → α) Prod.fst Prod.fst w
    (fun _ => true) with hfp
  set data := (s ++ s).enum with hdata
  have hdl : data.length = 2 * s.length := by
    simp [hdata]
    omega
  have hn : fp.window_size ≤ data.length := by
    show w ≤ data.length
    omega
  obtain ⟨fp', hproc, _, _, _, _, _, hlook, _⟩ :=
    process_series_spec hash_sequence fp data (show 1 ≤ fp.window_size from h1) hn
  have hwsz : fp.window_size = w := rfl
  have hacc : accepted_starts fp data = List.range (data.length - w + 1) := by
    simp [accepted_starts, Fingerprinter.new, hfp]
  have hmap : data.map fp.get_value = s ++ s := by
    simp [hdata, hfp, Fingerprinter.new]
  have hwv0 : window_values fp data 0 = s.take w := by
    show ((data.map fp.get_value).drop 0).take fp.window_size = s.take w
    rw [hmap, hwsz, List.drop_zero, List.take_append_eq_append_take,
      Nat.sub_eq_zero_of_le hw]
    simp
  have hwvL : window_values fp data s.length = s.take w := by
    show ((data.map fp.get_value).drop s.length).take fp.window_size = s.take w
    rw [hmap, hwsz]
    rw [show (s ++ s).drop s.length = s from List.drop_left s s]
  have h0mem : 0 ∈ accepted_starts fp data := by
    rw [hacc, List.mem_range]
    omega
  have hLmem : s.length ∈ accepted_starts fp data := by
    rw [hacc, List.mem_range]
    omega
  have h0f : 0 ∈ (accepted_starts fp data).filter
      (fun s0 => decide (hash_sequence (window_values fp data s0) =
        hash_sequence (s.take w))) :=
    List.mem_filter.mpr ⟨h0mem, by simp [hwv0]⟩
  have hLf : s.length ∈ (accepted_starts fp data).filter
      (fun s0 => decide (hash_sequence (window_values fp data s0) =
        hash_sequence (s.take w))) :=
    List.mem_filter.mpr ⟨hLmem, by simp [hwvL]⟩
  set filtered := (accepted_starts fp data).filter
    (fun s0 => decide (hash_sequence (window_values fp data s0) =
      hash_sequence (s.take w))) with hfiltered
  set g := filtered.map (occurrence_at fp data) with hg
  have hlookd : lookupDigest fp'.occurrences (hash_sequence (s.take w)) = some g := by
    rw [hlook (hash_sequence (s.take w))]
    exact optList_of_ne_nil (List.ne_nil_of_mem (List.mem_map_of_mem _ h0f))
  have hnodup : filtered.Nodup := by
    rw [hfiltered, hacc]
    exact ((List.nodup_range _).filter _)
  have hflen : 2 ≤ filtered.length :=
    two_le_length_of_mem_ne h0f hLf (by omega)
  have hgdup : g ∈ duplicates fp' := by
    rw [duplicates, List.mem_filter]
    refine ⟨lookup_mem_values hlookd, ?_⟩
    simp only [hg, List.length_map]
    simpa using by omega
  have h0lt : 0 < (s ++ s).length := by
    simp
    omega
  have hLlt : s.length < (s ++ s).length := by
    simp
    omega
  have hsi0 : (occurrence_at fp data 0).start_index = 0 := by
    simp [occurrence_at, hfp, Fingerprinter.new, hdata, List.getD_eq_getElem?_getD,
      List.getElem?_enum, List.getElem?_eq_getElem h0lt]
  have hsiL : (occurrence_at fp data s.length).start_index = s.length := by
    simp [occurrence_at, hfp, Fingerprinter.new, hdata, List.getD_eq_getElem?_getD,
      List.getElem?_enum, List.getElem?_eq_getElem hLlt]
  refine ⟨fp', hproc, g, hgdup, occurrence_at fp data 0,
    List.mem_map_of_mem _ h0f, occurrence_at fp data s.length,
    List.mem_map_of_mem _ hLf, ?_⟩
  rw [hsi0, hsiL]
  omega

theorem claim_C4_witness :
    ∃ fp' : Fingerprinter (Nat × Nat) Nat Nat Nat,
      process_series hashW
        (Fingerprinter.new Prod.snd Prod.fst Prod.fst 1 (fun _ => true))
        (([3, 4] ++ [3, 4]).enum) = some fp' ∧
      ∃ g ∈ duplicates fp', ∃ o1 ∈ g, ∃ o2 ∈ g,
        o1.start_index + [3, 4].length ≤ o2.start_index :=
  claim_C4 hashW [3, 4] 1 (by decide) (by decide)

/-- C5: on every reachable Fingerprinter state, `matches` digests the probe
sequence with the same `hash_sequence` used by `process_series` and looks it up
in the current index: it returns a present result exactly when the digest is a
key of the index, an explicit `none` otherwise, a present-but-empty occurrence
list is impossible, and no input is an error. -/
theorem claim_C5 (hash_sequence : List Value → Nat) (gv : Data → Value)
    (gi : Data → Index) (gm : Data → Metadata) (w : Nat)
    (filt : List Value → Bool) (series : List (List Data))
    (fp : Fingerprinter Data Index Metadata Value)
    (h : run_calls hash_sequence (Fingerprinter.new gv gi gm w filt) series = some fp) :
    ∀ sequence : List Value,
      fp.matches hash_sequence sequence =
        lookupDigest fp.occurrences (hash_sequence sequence) ∧
      ((fp.matches hash_sequence sequence).isSome ↔
        hash_sequence sequence ∈ fp.occurrences.map Prod.fst) ∧
      (∀ l, fp.matches hash_sequence sequence = some l → l ≠ []) := by
  have hgood : GoodMap fp.occurrences := run_calls_good goodMap_nil h
  intro sequence
  exact ⟨rfl, lookup_isSome_iff_mem_keys _ _,
    fun l hl => hgood.1 l (lookup_mem_values hl)⟩

/-- One record-value `5` occurrence, as recorded twice by scanning `[5, 5]`
with window 1 and identity projections. -/
def occ5 : Occurrence Nat Nat := ⟨5, 5, 5, 5⟩

/-- The fingerprinter state reached from `fpW1` by processing `[5, 5]`. -/
def fpC5 : Fingerprinter Nat Nat Nat Nat :=
  { fpW1 with occurrences := [(hashW [5], [occ5, occ5])] }

theorem claim_C5_witness :
    fpC5.matches hashW [5] = lookupDigest fpC5.occurrences (hashW [5]) ∧
    ((fpC5.matches hashW [5]).isSome ↔ hashW [5] ∈ fpC5.occurrences.map Prod.fst) := by
  have happ := claim_C5 hashW id id id 1 (fun _ => true) [[5, 5]] fpC5 rfl [5]
  exact ⟨happ.1, happ.2.1⟩

/-- C6: on every reachable Fingerprinter state, `duplicates()` yields exactly
the occurrence lists of the current index whose length exceeds one — an
occurrence list is yielded iff it is the full stored list of some digest and
has at least two elements; singleton groups are never yielded. -/
theorem claim_C6 (hash_sequence : List Value → Nat) (gv : Data → Value)
    (gi : Data → Index) (gm : Data → Metadata) (w : Nat)
    (filt : List Value → Bool) (series : List (List Data))
    (fp : Fingerprinter Data Index Metadata Value)
    (h : run_calls hash_sequence (Fingerprinter.new gv gi gm w filt) series = some fp) :
    ∀ l, l ∈ duplicates fp ↔
      ((∃ d, lookupDigest fp.occurrences d = some l) ∧ 1 < l.length) := by
  have hgood : GoodMap fp.occurrences := run_calls_good goodMap_nil h
  intro l
  constructor
  · intro hl
    simp only [duplicates, List.mem_filter] at hl
    exact ⟨mem_values_lookup hgood.2 hl.1, by simpa using hl.2⟩
  · rintro ⟨⟨d, hd⟩, hlen⟩
    simp only [duplicates, List.mem_filter]
    exact ⟨lookup_mem_values hd, by simpa⟩

theorem claim_C6_witness :
    [occ5, occ5] ∈ duplicates fpC5 ↔
      ((∃ d, lookupDigest fpC5.occurrences d = some [occ5, occ5]) ∧
        1 < [occ5, occ5].length) :=
  claim_C6 hashW id id id 1 (fun _ => true) [[5, 5]] fpC5 rfl [occ5, occ5]

/-- C7: for a series of length at least `window_size ≥ 1`, `process_series`
succeeds and the resulting index maps every digest `d` to exactly the ordered
list of Occurrences of the accepted windows hashing to `d`, each built from
the first and last record of its window (`occurrence_at`), listed in the order
the windows were scanned (ascending start offset, left to right), and maps no
other digest to anything. -/
theorem claim_C7 [Inhabited Data] (hash_sequence : List Value → Nat)
    (fp : Fingerprinter Data Index Metadata Value) (data : List Data)
    (h1 : 1 ≤ fp.window_size) (hn : fp.window_size ≤ data.length) :
    ∃ fp', process_series hash_sequence fp data = some fp' ∧
      ∀ d, lookupDigest fp'.occurrences d =
        optList (((accepted_starts fp data).filter
          (fun s => decide (hash_sequence (window_values fp data s) = d))).map
            (occurrence_at fp data)) := by
  obtain ⟨fp', hp, _, _, _, _, _, hlook, _⟩ :=
    process_series_spec hash_sequence fp data h1 hn
  exact ⟨fp', hp, hlook⟩

theorem claim_C7_witness :
    ∃ fp', process_series hashW fpW2 [7, 8, 7] = some fp' ∧
      ∀ d, lookupDigest fp'.occurrences d =
        optList (((accepted_starts fpW2 [7, 8, 7]).filter
          (fun s => decide (hashW (window_values fpW2 [7, 8, 7] s) = d))).map
            (occurrence_at fpW2 [7, 8, 7])) :=
  claim_C7 hashW fpW2 [7, 8, 7] (by decide) (by decide)

/-- C8: with a `sequence_filter` that rejects every slice, any sequence of
`process_series` calls from construction leaves the index empty, so
`duplicates()` yields nothing and `matches` reports "not found" for every
probe sequence. -/
theorem claim_C8 (hash_sequence : List Value → Nat) (gv : Data → Value)
    (gi : Data → Index) (gm : Data → Metadata) (w : Nat) (filt : List Value → Bool)
    (hfilt : ∀ vs, filt vs = false) (series : List (List Data))
    (fp : Fingerprinter Data Index Metadata Value)
    (h : run_calls hash_sequence (Fingerprinter.new gv gi gm w filt) series = some fp) :
    duplicates fp = [] ∧ ∀ sequence, fp.matches hash_sequence sequence = none := by
  have hQ : fp.sequence_filter = filt ∧ fp.occurrences = [] := by
    refine foldlM_option_invariant
      (P := fun g : Fingerprinter Data Index Metadata Value =>
        g.sequence_filter = filt ∧ g.occurrences = []) ?_ series _ fp ⟨rfl, rfl⟩ h
    intro g a g' hg hstep
    obtain ⟨_, _, _, _, hsf⟩ := process_series_config hstep
    exact ⟨hsf.trans hg.1,
      process_series_const_false (fun vs => by rw [hg.1]; exact hfilt vs) hg.2 hstep⟩
  refine ⟨?_, fun sequence => ?_⟩
  · simp [duplicates, hQ.2]
  · simp [Fingerprinter.matches, hQ.2, lookupDigest]

/-- The fingerprinter with the all-rejecting filter (its index stays empty). -/
def fpC8 : Fingerprinter Nat Nat Nat Nat := Fingerprinter.new id id id 1 (fun _ => false)

theorem claim_C8_witness :
    duplicates fpC8 = [] ∧ fpC8.matches hashW [1] = none := by
  have happ := claim_C8 hashW id id id 1 (fun _ => false) (fun vs => rfl) [[1, 2]] fpC8 rfl
  exact ⟨happ.1, happ.2 [1]⟩

/-- C9: `process_series` is deterministic in the two-run sense: the resulting
index content depends only on the configuration and the input series, not on
the previous index (for series at least as long as the window), and
re-processing the same series on the resulting state reproduces exactly the
same state. -/
theorem claim_C9 (hash_sequence : List Value → Nat)
    (fp : Fingerprinter Data Index Metadata Value) (data : List Data)
    (o1 o2 : List (Nat × List (Occurrence Index Metadata))) :
    (fp.window_size ≤ data.length →
      process_series hash_sequence { fp with occurrences := o1 } data =
        process_series hash_sequence { fp with occurrences := o2 } data) ∧
    (∀ fp', process_series hash_sequence fp data = some fp' →
      process_series hash_sequence fp' data = some fp') := by
  constructor
  · intro hn
    rw [process_series_occ_independent hn o1, process_series_occ_independent hn o2]
  · intro fp' h
    exact process_series_idem h

/-- A nonsense prior occurrence used to seed a dirty index in the C9 witness. -/
def occ9 : Occurrence Nat Nat := ⟨9, 9, 9, 9⟩

theorem claim_C9_witness :
    process_series hashW { fpW1 with occurrences := [(0, [occ9])] } [5, 5] =
      process_series hashW { fpW1 with occurrences := [] } [5, 5] :=
  (claim_C9 hashW fpW1 [5, 5] [(0, [occ9])] []).1 (by decide)

/-- C10: under the precondition `window_size ≥ 1`, every slice and index
operation of `process_series` is in bounds: the call never panics on any input
series (it always returns `some` state); `matches` and `duplicates` are total
by construction. -/
theorem claim_C10 (hash_sequence : List Value → Nat)
    (fp : Fingerprinter Data Index Metadata Value) (h1 : 1 ≤ fp.window_size)
    (data : List Data) :
    ∃ fp', process_series hash_sequence fp data = some fp' := by
  by_cases hlen : data.length < fp.window_size
  · exact ⟨fp, process_series_short hlen⟩
  · have hn : fp.window_size ≤ data.length := Nat.not_lt.mp hlen
    have hne : data ≠ [] := by
      intro hnil
      rw [hnil] at hn
      simp at hn
      omega
    haveI : Inhabited Data := ⟨data.head hne⟩
    obtain ⟨fp', hp, _⟩ := process_series_spec hash_sequence fp data h1 hn
    exact ⟨fp', hp⟩

theorem claim_C10_witness :
    ∃ fp', process_series hashW fpW2 [1, 2, 3] = some fp' :=
  claim_C10 hashW fpW2 (by decide) [1, 2, 3]

end TimeseriesFingerprint
